import Mathlib

/-!
Verification of the reverything NTFS index engine (shallow embedding).

Rust source files embedded here:
  - src/ntfs/index.rs   : run partitioning, index store, journal application
  - src/ntfs/journal.rs : USN journal record normalization
  - src/ntfs/file_record.rs : attribute iteration, primary-name extraction
  - src/ntfs/file_attribute.rs : data-run decoding

Conventions of the embedding:
  - Machine integers are modelled as Nat (or Int where the source uses
    signed arithmetic).  Operations that panic in Rust (slice indexing out
    of bounds, integer division by zero, arithmetic overflow under debug
    assertions, failed assert, unreachable) are modelled by returning
    none from an Option-valued function.
  - Byte buffers are List Nat, each element one byte value.
  - OS effects (DeviceIoControl, ReadFile, path resolution) are not part
    of the embedded functions; their results appear as plain inputs.
-/

/-! ## Byte-level helpers (little-endian integers, as produced by
`usize::from_le_bytes` / `u64::from_le_bytes` in the source). -/

def bytesToNatLE : List Nat → Nat
  | [] => 0
  | b :: rest => b % 256 + 256 * bytesToNatLE rest

def natToBytesLE : Nat → Nat → List Nat
  | 0, _ => []
  | w + 1, n => n % 256 :: natToBytesLE w (n / 256)

/-- Read `w` bytes of `data` starting at `off` (the contents of
`&data[off..off+w]`). -/
def sliceBytes (data : List Nat) (off w : Nat) : List Nat :=
  (data.drop off).take w

theorem length_natToBytesLE (w n : Nat) : (natToBytesLE w n).length = w := by
  induction w generalizing n with
  | zero => rfl
  | succ w ih => simp [natToBytesLE, ih]

theorem bytesToNatLE_natToBytesLE (w n : Nat) :
    bytesToNatLE (natToBytesLE w n) = n % 256 ^ w := by
  induction w generalizing n with
  | zero => simp [natToBytesLE, bytesToNatLE, Nat.mod_one]
  | succ w ih =>
    simp only [natToBytesLE, bytesToNatLE, ih]
    rw [pow_succ', Nat.mod_mul]
    omega

/-! ## Runs (the Rust `Range<usize>` byte ranges produced by data-run
decoding and consumed by the MFT partitioner). -/

structure Run where
  start : Nat
  stop : Nat
deriving Repr, DecidableEq

/-- `Range::<usize>::len()`: `stop - start` (0 for an empty/backwards range). -/
def Run.len (r : Run) : Nat := r.stop - r.start

/-- The byte offsets covered by a run, in order. -/
def Run.bytes (r : Run) : List Nat := (List.range r.len).map (· + r.start)

/-- The byte offsets covered by a run list, in order.  Equality of
`groupBytes` captures that two run lists describe the same bytes of the
volume in the same order. -/
def groupBytes (rs : List Run) : List Nat := (rs.map Run.bytes).flatten

def sumLen (rs : List Run) : Nat := (rs.map Run.len).sum

theorem groupBytes_append (a b : List Run) :
    groupBytes (a ++ b) = groupBytes a ++ groupBytes b := by
  simp [groupBytes]

theorem groupBytes_cons (r : Run) (b : List Run) :
    groupBytes (r :: b) = r.bytes ++ groupBytes b := by
  simp [groupBytes]

theorem groupBytes_singleton (r : Run) : groupBytes [r] = r.bytes := by
  simp [groupBytes]

theorem sumLen_append (a b : List Run) : sumLen (a ++ b) = sumLen a + sumLen b := by
  simp [sumLen]

/-- Splitting a run at an interior point preserves the byte sequence. -/
theorem Run.bytes_split (s k e : Nat) (h : s + k ≤ e) :
    Run.bytes ⟨s, s + k⟩ ++ Run.bytes ⟨s + k, e⟩ = Run.bytes ⟨s, e⟩ := by
  simp only [Run.bytes, Run.len]
  have h1 : s + k - s = k := by omega
  have h2 : e - s = k + (e - (s + k)) := by omega
  rw [h1, h2, List.range_add, List.map_append, List.map_map]
  congr 1
  apply List.map_congr_left
  intro x _
  simp only [Function.comp_apply]
  omega

/-! ## src/ntfs/index.rs : `distribute_runs_to_cpus`

The Rust function reads `num_cpus::get_physical()`; here the physical CPU
count is the parameter `physCpus`, and `volume_data.BytesPerCluster` is
the parameter `bpc`.  The inner `while` loop that fills one worker's run
group is `fillGroup`; the outer `for _ in 0..(cpus - 1)` loop is
`distributeLoop`.  A `none` result models a panic: the `assert_eq!` on
cluster alignment, division by zero when `cpus = 0`, or `% 0` when
`bpc = 0`. -/

def fillGroup (bpc runSize : Nat) (accSize : Nat) (acc : List Run) (runs : List Run) :
    Option (List Run × List Run) :=
  if _h : accSize < runSize then
    match runs with
    | [] => some (acc, [])
    | run :: rest =>
      if run.len % bpc ≠ 0 then none
      else if accSize + run.len > runSize then
        let split := runSize - accSize
        fillGroup bpc runSize (accSize + split)
          (acc ++ [⟨run.start, run.start + split⟩])
          (⟨run.start + split, run.stop⟩ :: rest)
      else
        fillGroup bpc runSize (accSize + run.len) (acc ++ [run]) rest
  else some (acc, runs)
termination_by runSize - accSize + runs.length
decreasing_by
  · simp only [List.length_cons]
    omega
  · simp only [List.length_cons]
    omega

def distributeLoop (bpc runSize : Nat) : Nat → List Run → Option (List (List Run) × List Run)
  | 0, runs => some ([], runs)
  | k + 1, runs => do
    let (g, rest) ← fillGroup bpc runSize 0 [] runs
    let (gs, rest2) ← distributeLoop bpc runSize k rest
    some (g :: gs, rest2)

def distribute_runs_to_cpus (physCpus bpc : Nat) (total_size : Nat) (runs : List Run) :
    Option (List (List Run)) :=
  let cpus := physCpus - 1
  if cpus = 0 then none
  else if bpc = 0 then none
  else
    let q := total_size / cpus
    let runSize := q - q % bpc
    (distributeLoop bpc runSize (cpus - 1) runs).map fun p => p.1 ++ [p.2]

/-- Behaviour of the inner worker-filling loop of `distribute_runs_to_cpus`:
given cluster-aligned inputs it succeeds, preserves the byte sequence,
keeps the built group within the byte budget, and keeps every run
cluster-aligned. -/
theorem fillGroup_spec (bpc runSize : Nat) (accSize : Nat) (acc runs : List Run)
    (hacc : accSize ≤ runSize) (hrs : runSize % bpc = 0) (haccm : accSize % bpc = 0)
    (haccAl : ∀ r ∈ acc, r.len % bpc = 0) (hal : ∀ r ∈ runs, r.len % bpc = 0) :
    ∃ g rest, fillGroup bpc runSize accSize acc runs = some (g, rest) ∧
      groupBytes g ++ groupBytes rest = groupBytes acc ++ groupBytes runs ∧
      sumLen g + accSize ≤ sumLen acc + runSize ∧
      (∀ r ∈ g, r.len % bpc = 0) ∧ (∀ r ∈ rest, r.len % bpc = 0) := by
  induction accSize, acc, runs using fillGroup.induct bpc runSize with
  | case1 accSize acc hlt =>
    refine ⟨acc, [], ?_, by simp [groupBytes], by omega, haccAl, by simp⟩
    rw [fillGroup]
    simp [hlt]
  | case2 accSize acc hlt run rest hbad =>
    exact absurd (hal run (by simp)) hbad
  | case3 accSize acc hlt run rest hnb hover sp ih =>
    simp only [not_not] at hnb
    have hsp_def : sp = runSize - accSize := rfl
    have hbpc : 0 < bpc := by
      rcases Nat.eq_zero_or_pos bpc with h0 | h0
      · subst h0
        simp [Nat.mod_zero] at hrs
        omega
      · exact h0
    have hsplit : sp % bpc = 0 := by
      rw [hsp_def]
      have hd := Nat.dvd_sub' (Nat.dvd_of_mod_eq_zero hrs) (Nat.dvd_of_mod_eq_zero haccm)
      exact Nat.mod_eq_zero_of_dvd hd
    have heq : accSize + sp = runSize := by rw [hsp_def]; omega
    have hlen : sp < run.len := by rw [hsp_def]; omega
    obtain ⟨g, rest2, hfg, hbytes, hsum, hgal, hral⟩ :=
      ih (by omega) (by rw [heq]; exact hrs)
        (by
          intro r hr
          rcases List.mem_append.mp hr with hr | hr
          · exact haccAl r hr
          · simp only [List.mem_singleton] at hr
            subst hr
            simpa [Run.len] using hsplit)
        (by
          intro r hr
          rcases List.mem_cons.mp hr with hr | hr
          · subst hr
            simp only [Run.len] at hnb ⊢
            have hd := Nat.dvd_sub' (Nat.dvd_of_mod_eq_zero hnb) (Nat.dvd_of_mod_eq_zero hsplit)
            have harith : run.stop - (run.start + sp) = run.stop - run.start - sp := by omega
            rw [harith]
            exact Nat.mod_eq_zero_of_dvd hd
          · exact hal r (List.mem_cons_of_mem _ hr))
    have hsplitbytes : Run.bytes ⟨run.start, run.start + sp⟩ ++
        Run.bytes ⟨run.start + sp, run.stop⟩ = Run.bytes run := by
      have hle : run.start + sp ≤ run.stop := by
        simp only [Run.len] at hlen
        omega
      have hb := Run.bytes_split run.start sp run.stop hle
      simpa using hb
    refine ⟨g, rest2, ?_, ?_, ?_, hgal, hral⟩
    · rw [fillGroup]
      rw [dif_pos hlt, if_neg (by simpa using hnb), if_pos hover]
      exact hfg
    · rw [hbytes, groupBytes_append, groupBytes_singleton, groupBytes_cons, groupBytes_cons,
        List.append_assoc]
      rw [← List.append_assoc (Run.bytes ⟨run.start, run.start + sp⟩), hsplitbytes]
    · rw [sumLen_append] at hsum
      simp only [sumLen, List.map_cons, List.map_nil, List.sum_cons, List.sum_nil, Run.len] at hsum
      simp only [sumLen]
      omega
  | case4 accSize acc hlt run rest hnb hover ih =>
    simp only [not_not] at hnb
    have hle : accSize + run.len ≤ runSize := by omega
    obtain ⟨g, rest2, hfg, hbytes, hsum, hgal, hral⟩ :=
      ih hle (by rw [Nat.add_mod, haccm, hnb]; simp)
        (by
          intro r hr
          rcases List.mem_append.mp hr with hr | hr
          · exact haccAl r hr
          · simp only [List.mem_singleton] at hr
            subst hr
            exact hnb)
        (fun r hr => hal r (List.mem_cons_of_mem _ hr))
    refine ⟨g, rest2, ?_, ?_, ?_, hgal, hral⟩
    · rw [fillGroup]
      rw [dif_pos hlt, if_neg (by simpa using hnb), if_neg hover]
      exact hfg
    · rw [hbytes, groupBytes_append, groupBytes_singleton, groupBytes_cons, List.append_assoc]
    · rw [sumLen_append] at hsum
      simp only [sumLen, List.map_cons, List.map_nil, List.sum_cons, List.sum_nil] at hsum
      simp only [sumLen]
      omega
  | case5 accSize acc runs hge =>
    refine ⟨acc, runs, ?_, rfl, by omega, haccAl, hal⟩
    rw [fillGroup.eq_def, dif_neg hge]

/-- Behaviour of the outer `for` loop of `distribute_runs_to_cpus`:
`k` iterations produce `k` groups, each within the byte budget, jointly
preserving the byte sequence; the unconsumed runs are returned. -/
theorem distributeLoop_spec (bpc runSize : Nat) (hrs : runSize % bpc = 0) :
    ∀ k runs, (∀ r ∈ runs, r.len % bpc = 0) →
    ∃ gs rest, distributeLoop bpc runSize k runs = some (gs, rest) ∧
      gs.length = k ∧
      groupBytes gs.flatten ++ groupBytes rest = groupBytes runs ∧
      (∀ g ∈ gs, sumLen g ≤ runSize ∧ ∀ r ∈ g, r.len % bpc = 0) ∧
      (∀ r ∈ rest, r.len % bpc = 0) := by
  intro k
  induction k with
  | zero =>
    intro runs hal
    exact ⟨[], runs, rfl, rfl, by simp [groupBytes], by simp, hal⟩
  | succ k ih =>
    intro runs hal
    obtain ⟨g, rest, hfg, hb, hs, hgal, hral⟩ :=
      fillGroup_spec bpc runSize 0 [] runs (Nat.zero_le _) hrs (Nat.zero_mod _) (by simp) hal
    obtain ⟨gs, rest2, hdl, hlen, hb2, hprops, hral2⟩ := ih rest hral
    refine ⟨g :: gs, rest2, ?_, by simp [hlen], ?_, ?_, hral2⟩
    · simp [distributeLoop, hfg, hdl]
    · simp only [List.flatten_cons, groupBytes_append, List.append_assoc]
      rw [hb2]
      simpa [groupBytes] using hb
    · intro g2 hg2
      rcases List.mem_cons.mp hg2 with hg2 | hg2
      · subst hg2
        constructor
        · have h0 : sumLen ([] : List Run) = 0 := rfl
          omega
        · exact hgal
      · exact hprops g2 hg2

/-- C1.  Partition correctness of MFT run distribution: for a run list
whose total size and individual run lengths are multiples of the cluster
size, with worker count `N = physCpus - 1 ≥ 1` as used by the partitioner,
`distribute_runs_to_cpus` returns `N` run groups; concatenating the groups
in order reproduces the original byte sequence in the original order;
every run in every group (hence every split) is cluster-aligned; each of
the first `N - 1` groups holds at most
`B = total_size / N` rounded down to a multiple of `bpc`; the last group
receives all remaining runs. -/
theorem distribute_runs_to_cpus_partitions (physCpus bpc total_size : Nat) (runs : List Run)
    (hcpu : 2 ≤ physCpus) (hbpc : 0 < bpc)
    (hal : ∀ r ∈ runs, r.len % bpc = 0)
    (_htot : total_size = sumLen runs) :
    ∃ groups, distribute_runs_to_cpus physCpus bpc total_size runs = some groups ∧
      groups.length = physCpus - 1 ∧
      groupBytes groups.flatten = groupBytes runs ∧
      (∀ g ∈ groups.dropLast,
        sumLen g ≤ total_size / (physCpus - 1) - total_size / (physCpus - 1) % bpc) ∧
      (∀ g ∈ groups, ∀ r ∈ g, r.len % bpc = 0) := by
  have hcpus : physCpus - 1 ≠ 0 := by omega
  have hbpc0 : bpc ≠ 0 := by omega
  set q := total_size / (physCpus - 1) with hq
  have hrs : (q - q % bpc) % bpc = 0 := by
    have h1 : q % bpc + bpc * (q / bpc) = q := Nat.mod_add_div q bpc
    have h2 : q - q % bpc = bpc * (q / bpc) := by omega
    rw [h2]
    exact Nat.mul_mod_right bpc (q / bpc)
  obtain ⟨gs, rest, hdl, hlen, hb, hprops, hral⟩ :=
    distributeLoop_spec bpc (q - q % bpc) hrs (physCpus - 1 - 1) runs hal
  refine ⟨gs ++ [rest], ?_, ?_, ?_, ?_, ?_⟩
  · simp only [distribute_runs_to_cpus]
    rw [if_neg hcpus, if_neg hbpc0]
    rw [← hq, hdl]
    rfl
  · simp [hlen]
    omega
  · rw [List.flatten_append]
    simpa [groupBytes_append, groupBytes] using hb
  · rw [List.dropLast_concat]
    intro g hg
    exact (hprops g hg).1
  · intro g hg
    rcases List.mem_append.mp hg with hg | hg
    · exact (hprops g hg).2
    · simp only [List.mem_singleton] at hg
      subst hg
      exact hral

/-- Witness for C1 at a concrete input: 3 physical CPUs (2 workers),
cluster size 2, runs `[0..8) ++ [10..14)` of total size 12. -/
theorem distribute_runs_to_cpus_partitions_witness :
    ∃ groups,
      distribute_runs_to_cpus 3 2 12 [⟨0, 8⟩, ⟨10, 14⟩] = some groups ∧
      groups.length = 3 - 1 ∧
      groupBytes groups.flatten = groupBytes [⟨0, 8⟩, ⟨10, 14⟩] ∧
      (∀ g ∈ groups.dropLast, sumLen g ≤ 12 / (3 - 1) - 12 / (3 - 1) % 2) ∧
      (∀ g ∈ groups, ∀ r ∈ g, r.len % 2 = 0) :=
  distribute_runs_to_cpus_partitions 3 2 12 [⟨0, 8⟩, ⟨10, 14⟩]
    (by decide) (by decide) (by decide) (by decide)

/-- C2 (code bug).  With exactly 1 physical CPU the source sets
`cpus = num_cpus::get_physical() - 1 = 0` and then computes
`total_size / cpus`, a division by zero that panics; the function never
returns a single run group as the specification requires.  The `none`
result is the embedded panic, for every run list. -/
theorem distribute_runs_to_cpus_one_physical_cpu (bpc total_size : Nat) (runs : List Run) :
    distribute_runs_to_cpus 1 bpc total_size runs = none := rfl

/-! ## src/ntfs/journal.rs : the USN journal reader

The OS interaction (FSCTL_READ_USN_JOURNAL, the USN cursor handling, and
the OpenFileById-based `compute_full_path`) is outside the embedding: a
batch arrives as a list of already-parsed v3 records, each carrying its
resolved path.  `read_entries_loop` is the per-record `while` loop of
`Journal::read_entries` (journal.rs lines 108-143); `processUsnRecord` is
its body; `match_rename` is `Journal::match_rename`.  A `JournalError`
result models the `?`-propagated `eyre` error (renameNotFound for the
"Failed to find old name for rename" context, invalidReason for the
`unreachable!` panic); it aborts the whole batch, with FIFO mutations
made so far retained, exactly as the `&mut self` Rust code does. -/

namespace journal

def USN_REASON_FILE_CREATE : Nat := 0x100
def USN_REASON_FILE_DELETE : Nat := 0x200
def USN_REASON_RENAME_OLD_NAME : Nat := 0x1000
def USN_REASON_RENAME_NEW_NAME : Nat := 0x2000

def MAX_HISTORY_SIZE : Nat := 1000

structure UnmatchedRename where
  file_id : Nat
  old_path : String
deriving Repr, DecidableEq

inductive JournalEntry where
  | FileCreate (path : String)
  | FileDelete (path : String)
  | Rename (old_path new_path : String)
deriving Repr, DecidableEq

structure UsnRecord where
  reason : Nat
  file_id : Nat
  path : String
deriving Repr, DecidableEq

inductive JournalError where
  | renameNotFound
  | invalidReason
deriving Repr, DecidableEq

def match_rename (fifo : List UnmatchedRename) (new_path : String) (file_id : Nat) :
    Except JournalError JournalEntry :=
  match fifo.find? (fun x => x.file_id == file_id) with
  | some rename => .ok (.Rename rename.old_path new_path)
  | none => .error .renameNotFound

def processUsnRecord (fifo : List UnmatchedRename) (r : UsnRecord) :
    List UnmatchedRename × Except JournalError (Option JournalEntry) :=
  if r.reason &&& USN_REASON_RENAME_OLD_NAME ≠ 0 then
    ((if MAX_HISTORY_SIZE ≤ fifo.length then fifo.tail else fifo) ++ [⟨r.file_id, r.path⟩],
      .ok none)
  else if r.reason &&& USN_REASON_FILE_CREATE ≠ 0 then
    (fifo, .ok (some (.FileCreate r.path)))
  else if r.reason &&& USN_REASON_FILE_DELETE ≠ 0 then
    (fifo, .ok (some (.FileDelete r.path)))
  else if r.reason &&& USN_REASON_RENAME_NEW_NAME ≠ 0 then
    match match_rename fifo r.path r.file_id with
    | .ok e => (fifo, .ok (some e))
    | .error err => (fifo, .error err)
  else
    (fifo, .error .invalidReason)

def read_entries_loop (fifo : List UnmatchedRename) (recs : List UsnRecord)
    (entries : List JournalEntry) :
    List UnmatchedRename × Except JournalError (List JournalEntry) :=
  match recs with
  | [] => (fifo, .ok entries)
  | r :: rest =>
    match processUsnRecord fifo r with
    | (fifo2, .ok none) => read_entries_loop fifo2 rest entries
    | (fifo2, .ok (some e)) => read_entries_loop fifo2 rest (entries ++ [e])
    | (fifo2, .error err) => (fifo2, .error err)

/-- C3 counterexample.  A batch holding one RENAME_NEW_NAME record with
no matching old-name entry in the FIFO makes `read_entries` fail the
whole batch with the "Failed to find old name for rename" error, instead
of dropping the record and continuing as the claim states. -/
theorem read_entries_unmatched_new_name_fails_batch :
    read_entries_loop [] [⟨0x2000, 42, "np"⟩] [] = ([], .error .renameNotFound) ∧
    (read_entries_loop [] [⟨0x2000, 42, "np"⟩] []).2 ≠ .ok [] := by
  constructor
  · rfl
  · have h : (read_entries_loop [] [⟨0x2000, 42, "np"⟩] []).2 = .error .renameNotFound := rfl
    rw [h]
    simp

/-- C3 amended.  When a RENAME_NEW_NAME record (old-name, create and
delete bits clear) arrives, the reader finds the first unmatched
old-name entry with the same file identity in the FIFO; if one is
present it emits a `Rename` event built from that entry's old path and
continues with the rest of the batch, deliberately leaving the entry in
the FIFO (so it can be matched again); if none is present, `read_entries`
aborts the whole batch with an error. -/
theorem match_rename_semantics (fifo : List UnmatchedRename) (rest : List UsnRecord)
    (entries : List JournalEntry) (r : UsnRecord)
    (hold : r.reason &&& USN_REASON_RENAME_OLD_NAME = 0)
    (hcr : r.reason &&& USN_REASON_FILE_CREATE = 0)
    (hdel : r.reason &&& USN_REASON_FILE_DELETE = 0)
    (hnew : r.reason &&& USN_REASON_RENAME_NEW_NAME ≠ 0) :
    (∀ u, fifo.find? (fun x => x.file_id == r.file_id) = some u →
        read_entries_loop fifo (r :: rest) entries =
          read_entries_loop fifo rest (entries ++ [.Rename u.old_path r.path])) ∧
    (fifo.find? (fun x => x.file_id == r.file_id) = none →
        read_entries_loop fifo (r :: rest) entries = (fifo, .error .renameNotFound)) := by
  constructor
  · intro u hu
    rw [read_entries_loop]
    simp only [processUsnRecord, hold, hcr, hdel, hnew, ne_eq, not_true_eq_false, if_false,
      not_false_eq_true, if_true, match_rename, hu]
  · intro hn
    rw [read_entries_loop]
    simp only [processUsnRecord, hold, hcr, hdel, hnew, ne_eq, not_true_eq_false, if_false,
      not_false_eq_true, if_true, match_rename, hn]

/-- Witness for C3 at a concrete input: a one-entry FIFO and one
RENAME_NEW_NAME record with the matching file identity 42. -/
theorem match_rename_semantics_witness :
    ((∀ u, [(⟨42, "op"⟩ : UnmatchedRename)].find?
          (fun x => x.file_id == (⟨0x2000, 42, "np"⟩ : UsnRecord).file_id) = some u →
        read_entries_loop [⟨42, "op"⟩] [⟨0x2000, 42, "np"⟩] [] =
          read_entries_loop [⟨42, "op"⟩] []
            ([] ++ [.Rename u.old_path (⟨0x2000, 42, "np"⟩ : UsnRecord).path])) ∧
    ([(⟨42, "op"⟩ : UnmatchedRename)].find?
          (fun x => x.file_id == (⟨0x2000, 42, "np"⟩ : UsnRecord).file_id) = none →
        read_entries_loop [⟨42, "op"⟩] [⟨0x2000, 42, "np"⟩] [] =
          ([⟨42, "op"⟩], .error .renameNotFound))) :=
  match_rename_semantics [⟨42, "op"⟩] [] [] ⟨0x2000, 42, "np"⟩
    (by decide) (by decide) (by decide) (by decide)

/-- Processing one USN record never pushes the unmatched-renames FIFO
above `MAX_HISTORY_SIZE`. -/
theorem processUsnRecord_length_le (fifo : List UnmatchedRename) (r : UsnRecord)
    (h : fifo.length ≤ MAX_HISTORY_SIZE) :
    (processUsnRecord fifo r).1.length ≤ MAX_HISTORY_SIZE := by
  by_cases h1 : r.reason &&& USN_REASON_RENAME_OLD_NAME ≠ 0
  · by_cases h2 : MAX_HISTORY_SIZE ≤ fifo.length
    · rw [processUsnRecord, if_pos h1, if_pos h2]
      show (fifo.tail ++ [(⟨r.file_id, r.path⟩ : UnmatchedRename)]).length ≤ MAX_HISTORY_SIZE
      simp only [List.length_append, List.length_tail, List.length_cons, List.length_nil,
        MAX_HISTORY_SIZE] at h h2 ⊢
      omega
    · rw [processUsnRecord, if_pos h1, if_neg h2]
      show (fifo ++ [(⟨r.file_id, r.path⟩ : UnmatchedRename)]).length ≤ MAX_HISTORY_SIZE
      simp only [List.length_append, List.length_cons, List.length_nil,
        MAX_HISTORY_SIZE] at h h2 ⊢
      omega
  · by_cases h3 : r.reason &&& USN_REASON_FILE_CREATE ≠ 0
    · simpa only [processUsnRecord, if_neg h1, if_pos h3] using h
    · by_cases h4 : r.reason &&& USN_REASON_FILE_DELETE ≠ 0
      · simpa only [processUsnRecord, if_neg h1, if_neg h3, if_pos h4] using h
      · by_cases h5 : r.reason &&& USN_REASON_RENAME_NEW_NAME ≠ 0
        · rcases hm : match_rename fifo r.path r.file_id with e | e <;>
            simpa only [processUsnRecord, if_neg h1, if_neg h3, if_neg h4, if_pos h5, hm] using h
        · simpa only [processUsnRecord, if_neg h1, if_neg h3, if_neg h4, if_neg h5] using h

/-- C4 amended.  The unmatched-renames FIFO is bounded by
`MAX_HISTORY_SIZE = 1000` (not 2000): every batch processed from a FIFO
within the bound stays within the bound, and a RENAME_OLD_NAME record
arriving with the FIFO at capacity drops the oldest entry silently and
continues (no event, no error). -/
theorem unmatched_renames_fifo_bounded :
    (∀ fifo recs entries, fifo.length ≤ MAX_HISTORY_SIZE →
        (read_entries_loop fifo recs entries).1.length ≤ MAX_HISTORY_SIZE) ∧
    (∀ (fifo : List UnmatchedRename) (r : UsnRecord),
        r.reason &&& USN_REASON_RENAME_OLD_NAME ≠ 0 → MAX_HISTORY_SIZE ≤ fifo.length →
        processUsnRecord fifo r = (fifo.tail ++ [⟨r.file_id, r.path⟩], .ok none)) := by
  constructor
  · intro fifo recs
    induction recs generalizing fifo with
    | nil => intro entries h; exact h
    | cons r rest ih =>
      intro entries h
      have hp := processUsnRecord_length_le fifo r h
      rw [read_entries_loop]
      rcases hpr : processUsnRecord fifo r with ⟨fifo2, res⟩
      rw [hpr] at hp
      match res with
      | .ok none => exact ih fifo2 entries hp
      | .ok (some e) => exact ih fifo2 (entries ++ [e]) hp
      | .error err => exact hp
  · intro fifo r hbit hlen
    rw [processUsnRecord, if_pos hbit, if_pos hlen]

/-- Witness for C4 at concrete inputs: one old-name record from the
empty FIFO, and one old-name record arriving at a FIFO of exactly 1000
entries. -/
theorem unmatched_renames_fifo_bounded_witness :
    ((read_entries_loop [] [⟨0x1000, 3, "p"⟩] []).1.length ≤ MAX_HISTORY_SIZE) ∧
    (processUsnRecord (List.replicate 1000 ⟨0, ""⟩) ⟨0x1000, 7, "q"⟩ =
      ((List.replicate 1000 (⟨0, ""⟩ : UnmatchedRename)).tail ++ [⟨7, "q"⟩], .ok none)) :=
  ⟨unmatched_renames_fifo_bounded.1 [] [⟨0x1000, 3, "p"⟩] [] (by decide),
   unmatched_renames_fifo_bounded.2 (List.replicate 1000 ⟨0, ""⟩) ⟨0x1000, 7, "q"⟩
     (by decide) (by rw [List.length_replicate]; decide)⟩

/-- Length of the FIFO after a batch of RENAME_OLD_NAME records: each
record adds one entry until the FIFO reaches `MAX_HISTORY_SIZE`, where
it saturates (the oldest entry is dropped on each further push). -/
theorem read_entries_loop_old_length (recs : List UsnRecord)
    (hall : ∀ r ∈ recs, r.reason &&& USN_REASON_RENAME_OLD_NAME ≠ 0) :
    ∀ fifo entries,
      (read_entries_loop fifo recs entries).1.length =
        min (fifo.length + recs.length) (max fifo.length MAX_HISTORY_SIZE) ∧
      (read_entries_loop fifo recs entries).2 = .ok entries := by
  induction recs with
  | nil =>
    intro fifo entries
    constructor
    · show fifo.length = _
      simp only [List.length_nil, MAX_HISTORY_SIZE]
      omega
    · rfl
  | cons r rest ih =>
    intro fifo entries
    have hr := hall r (by simp)
    have hrest : ∀ x ∈ rest, x.reason &&& USN_REASON_RENAME_OLD_NAME ≠ 0 :=
      fun x hx => hall x (List.mem_cons_of_mem _ hx)
    have hstep : read_entries_loop fifo (r :: rest) entries =
        read_entries_loop ((if MAX_HISTORY_SIZE ≤ fifo.length then fifo.tail else fifo)
          ++ [⟨r.file_id, r.path⟩]) rest entries := by
      rw [read_entries_loop, processUsnRecord, if_pos hr]
    rw [hstep]
    obtain ⟨h1, h2⟩ := ih hrest
      ((if MAX_HISTORY_SIZE ≤ fifo.length then fifo.tail else fifo) ++ [⟨r.file_id, r.path⟩])
      entries
    refine ⟨?_, h2⟩
    rw [h1]
    by_cases hc : MAX_HISTORY_SIZE ≤ fifo.length
    · rw [if_pos hc]
      simp only [List.length_append, List.length_tail, List.length_cons, List.length_nil,
        MAX_HISTORY_SIZE] at hc ⊢
      omega
    · rw [if_neg hc]
      simp only [List.length_append, List.length_cons, List.length_nil,
        MAX_HISTORY_SIZE] at hc ⊢
      omega


def oldRenameRecords (n : Nat) : List UsnRecord :=
  (List.range n).map fun i => ⟨0x1000, i, ""⟩

/-- C4 counterexample.  After 1001 RENAME_OLD_NAME records from an empty
FIFO — during which no push ever finds 2000 entries present — the FIFO
holds 1000 entries, not 1001: an entry was dropped although the claimed
capacity of 2000 was never exceeded, because the code's capacity is
`MAX_HISTORY_SIZE = 1000`. -/
theorem unmatched_renames_capacity_is_1000 :
    (read_entries_loop [] (oldRenameRecords 1001) []).1.length = 1000 ∧
    (read_entries_loop [] (oldRenameRecords 1001) []).1.length ≠ 1001 := by
  have hall : ∀ r ∈ oldRenameRecords 1001, r.reason &&& USN_REASON_RENAME_OLD_NAME ≠ 0 := by
    intro r hr
    simp only [oldRenameRecords, List.mem_map] at hr
    obtain ⟨i, _, rfl⟩ := hr
    exact (by decide : (4096 : Nat) &&& USN_REASON_RENAME_OLD_NAME ≠ 0)
  have h := (read_entries_loop_old_length (oldRenameRecords 1001) hall [] []).1
  have hlen : (oldRenameRecords 1001).length = 1001 := by
    simp [oldRenameRecords]
  rw [hlen] at h
  simp only [List.length_nil, MAX_HISTORY_SIZE] at h
  omega

end journal

/-! ## src/ntfs/index.rs : `NtfsVolumeIndex` and journal application

`FileInfo` packs the directory bit into bit 63 of `size_and_directory`;
`FileInfo.new` models the `assert!(size <= 0x7FFF_FFFF_FFFF_FFFF)` panic
as `none`.  The `volume` field of the Rust struct (only used for the
drive letter in path rendering) is omitted.  This revision of index.rs
consumes MFT-index-based journal events, so `index.JournalEntry` differs
from `journal.JournalEntry`.  `processEntry` is one arm of the `for`
loop of `process_journal_entries` (index.rs lines 73-147); the unchecked
`self.infos[*index as usize] = None` of the Delete arm panics for an
out-of-range index, modelled by `none`. -/

namespace index

inductive JournalEntry where
  | FileCreate (mft_index : Nat) (is_directory : Bool) (parent_mft_index : Nat) (name : String)
  | Rename (mft_index : Nat) (new_name : String) (new_parent_mft_index : Nat)
  | FileDelete (idx : Nat)
deriving Repr, DecidableEq

structure FileInfo where
  name : String
  parent : Nat
  size_and_directory : Nat
deriving Repr, DecidableEq

def FileInfo.new (size : Nat) (is_directory : Bool) (parent : Nat) (name : String) :
    Option FileInfo :=
  if size ≤ 0x7FFFFFFFFFFFFFFF then
    some ⟨name, parent, size ||| (if is_directory then 1 <<< 63 else 0)⟩
  else none

def FileInfo.size (f : FileInfo) : Nat := f.size_and_directory &&& (2 ^ 63 - 1)

def FileInfo.is_directory (f : FileInfo) : Bool := f.size_and_directory &&& (1 <<< 63) != 0

structure NtfsVolumeIndex where
  infos : List (Option FileInfo)
deriving Repr, DecidableEq

def find_by_index (idx : NtfsVolumeIndex) (i : Nat) : Option FileInfo :=
  (idx.infos[i]?).join

def processEntry (idx : NtfsVolumeIndex) (e : JournalEntry) : Option NtfsVolumeIndex :=
  match e with
  | .FileCreate mft_index is_directory parent_mft_index name =>
    if (find_by_index idx mft_index).isSome then some idx
    else if (find_by_index idx parent_mft_index).isNone then some idx
    else
      let infos :=
        if idx.infos.length ≤ mft_index then
          idx.infos ++ List.replicate (mft_index + 1 - idx.infos.length) none
        else idx.infos
      match FileInfo.new 0 is_directory parent_mft_index name with
      | some fi => some ⟨infos.set mft_index (some fi)⟩
      | none => none
  | .Rename mft_index new_name new_parent_mft_index =>
    if (find_by_index idx new_parent_mft_index).isNone then some idx
    else
      match idx.infos[mft_index]? with
      | some (some info) =>
        some ⟨idx.infos.set mft_index
          (some { info with name := new_name, parent := new_parent_mft_index })⟩
      | _ => some idx
  | .FileDelete i =>
    if i < idx.infos.length then some ⟨idx.infos.set i none⟩ else none

def process_journal_entries (idx : NtfsVolumeIndex) (entries : List JournalEntry) :
    Option NtfsVolumeIndex :=
  match entries with
  | [] => some idx
  | e :: rest => (processEntry idx e).bind fun idx2 => process_journal_entries idx2 rest

/-- Invariant (a) of claim C5, as a decidable check: every live entry
whose parent differs from its own index has an occupied slot at its
parent that describes a directory. -/
def parentChainOk (idx : NtfsVolumeIndex) : Bool :=
  (List.range idx.infos.length).all fun i =>
    match idx.infos[i]? with
    | some (some f) =>
      f.parent == i ||
        (match find_by_index idx f.parent with
         | some p => p.is_directory
         | none => false)
    | _ => true

/-- Invariant (b) of claim C5: no entry other than the root at MFT
index 5 has a parent equal to its own index. -/
def noSelfParentExceptRoot (idx : NtfsVolumeIndex) : Bool :=
  (List.range idx.infos.length).all fun i =>
    match idx.infos[i]? with
    | some (some f) => i == 5 || f.parent != i
    | _ => true

/-- A concrete index used by the C5 counterexample and witness:
root at 5 (directory, parent 5), a directory at 6 (parent 5), and a file
at 7 (parent 6); `9223372036854775808 = 2^63` is the packed directory
bit. -/
def exampleIndex : NtfsVolumeIndex :=
  ⟨[none, none, none, none, none,
    some ⟨"", 5, 9223372036854775808⟩,
    some ⟨"dir", 5, 9223372036854775808⟩,
    some ⟨"file", 6, 0⟩]⟩

/-- C5 counterexample.  The index
`[_, _, _, _, _, root(5, dir), dir(6, parent 5), file(7, parent 6)]`
satisfies both claimed invariants: (a) every live entry whose parent
differs from its own index has an occupied directory slot at its parent,
and (b) no entry other than the root at MFT index 5 is its own parent.
Applying the journal batch `[FileDelete 6]` succeeds but leaves entry 7
live with parent 6 pointing at an empty slot, so invariant (a) no longer
holds: `process_journal_entries` does not preserve the parent-chain
invariant. -/
theorem process_journal_entries_breaks_parent_chain :
    parentChainOk exampleIndex = true ∧
    noSelfParentExceptRoot exampleIndex = true ∧
    (process_journal_entries exampleIndex [.FileDelete 6]).map
        (fun s => parentChainOk s && noSelfParentExceptRoot s) = some false := by
  refine ⟨by decide, by decide, by decide⟩


def parentsInBounds (idx : NtfsVolumeIndex) : Bool :=
  (List.range idx.infos.length).all fun i =>
    match idx.infos[i]? with
    | some (some f) => decide (f.parent < idx.infos.length)
    | _ => true

theorem parentsInBounds_iff (idx : NtfsVolumeIndex) :
    parentsInBounds idx = true ↔
      ∀ (i : Nat) (f : FileInfo), idx.infos[i]? = some (some f) →
        f.parent < idx.infos.length := by
  unfold parentsInBounds
  rw [List.all_eq_true]
  constructor
  · intro h i f hif
    have hi : i < idx.infos.length := by
      by_contra hge
      rw [List.getElem?_eq_none (by omega)] at hif
      exact Option.noConfusion hif
    have h2 := h i (List.mem_range.mpr hi)
    rw [hif] at h2
    simpa using h2
  · intro h i _
    rcases hx : idx.infos[i]? with _ | f2
    · simp
    · rcases f2 with _ | f
      · simp
      · simpa using h i f hx

theorem find_by_index_lt (idx : NtfsVolumeIndex) (i : Nat) (f : FileInfo)
    (h : find_by_index idx i = some f) : i < idx.infos.length ∧ idx.infos[i]? = some (some f) := by
  unfold find_by_index at h
  rcases hx : idx.infos[i]? with _ | f2
  · rw [hx] at h
    exact Option.noConfusion h
  · rw [hx] at h
    simp only [Option.join] at h
    subst h
    refine ⟨?_, rfl⟩
    by_contra hge
    rw [List.getElem?_eq_none (by omega)] at hx
    exact Option.noConfusion hx

theorem processEntry_parents_in_bounds (idx idx2 : NtfsVolumeIndex) (e : JournalEntry)
    (h : processEntry idx e = some idx2)
    (hinv : ∀ (i : Nat) (f : FileInfo), idx.infos[i]? = some (some f) →
      f.parent < idx.infos.length) :
    ∀ (i : Nat) (f : FileInfo), idx2.infos[i]? = some (some f) →
      f.parent < idx2.infos.length := by
  match e with
  | .FileCreate mft is_dir parent name =>
    rw [processEntry] at h
    by_cases h1 : (find_by_index idx mft).isSome
    · rw [if_pos h1] at h
      cases h
      exact hinv
    · rw [if_neg h1] at h
      by_cases h2 : (find_by_index idx parent).isNone
      · rw [if_pos h2] at h
        cases h
        exact hinv
      · rw [if_neg h2] at h
        have hp : ∃ pf, find_by_index idx parent = some pf := by
          rcases hx : find_by_index idx parent with _ | pf
          · rw [hx] at h2
            simp at h2
          · exact ⟨pf, rfl⟩
        obtain ⟨pf, hpf⟩ := hp
        have hplt := (find_by_index_lt idx parent pf hpf).1
        have hnew : FileInfo.new 0 is_dir parent name =
            some ⟨name, parent, 0 ||| (if is_dir then 1 <<< 63 else 0)⟩ := by
          rw [FileInfo.new, if_pos (by omega)]
        rw [hnew] at h
        simp only [Option.some.injEq] at h
        subst h
        intro i f hif
        · simp only at hif ⊢
          by_cases hpad : idx.infos.length ≤ mft
          · rw [if_pos hpad] at hif ⊢
            rw [List.length_set, List.length_append, List.length_replicate] at *
            rw [List.getElem?_set] at hif
            by_cases hieq : mft = i
            · rw [if_pos hieq, if_pos (by rw [List.length_append, List.length_replicate]; omega)]
                at hif
              simp only [Option.some.injEq] at hif
              subst hif
              simpa using Nat.lt_of_lt_of_le hplt (by omega)
            · rw [if_neg hieq, List.getElem?_append] at hif
              by_cases hilt : i < idx.infos.length
              · rw [if_pos hilt] at hif
                exact Nat.lt_of_lt_of_le (hinv i f hif) (by omega)
              · rw [if_neg hilt, List.getElem?_replicate] at hif
                by_cases hrep : i - idx.infos.length < mft + 1 - idx.infos.length
                · rw [if_pos hrep] at hif
                  exact absurd hif (by simp)
                · rw [if_neg hrep] at hif
                  exact Option.noConfusion hif
          · rw [if_neg hpad] at hif ⊢
            rw [List.length_set]
            rw [List.getElem?_set] at hif
            by_cases hieq : mft = i
            · rw [if_pos hieq, if_pos (by omega)] at hif
              simp only [Option.some.injEq] at hif
              subst hif
              simpa using hplt
            · rw [if_neg hieq] at hif
              exact hinv i f hif
  | .Rename mft new_name new_parent =>
    rw [processEntry] at h
    by_cases h1 : (find_by_index idx new_parent).isNone
    · rw [if_pos h1] at h
      cases h
      exact hinv
    · rw [if_neg h1] at h
      have hp : ∃ pf, find_by_index idx new_parent = some pf := by
        rcases hx : find_by_index idx new_parent with _ | pf
        · rw [hx] at h1
          simp at h1
        · exact ⟨pf, rfl⟩
      obtain ⟨pf, hpf⟩ := hp
      have hplt := (find_by_index_lt idx new_parent pf hpf).1
      rcases hx : idx.infos[mft]? with _ | oinfo
      · rw [hx] at h
        cases h
        exact hinv
      · rcases oinfo with _ | info
        · rw [hx] at h
          cases h
          exact hinv
        · rw [hx] at h
          simp only [Option.some.injEq] at h
          subst h
          intro i f hif
          simp only [List.length_set] at *
          rw [List.getElem?_set] at hif
          by_cases hieq : mft = i
          · by_cases hlt : mft < idx.infos.length
            · rw [if_pos hieq, if_pos hlt] at hif
              simp only [Option.some.injEq] at hif
              subst hif
              exact hplt
            · rw [if_pos hieq, if_neg hlt] at hif
              exact Option.noConfusion hif
          · rw [if_neg hieq] at hif
            exact hinv i f hif
  | .FileDelete i0 =>
    rw [processEntry] at h
    by_cases hlt : i0 < idx.infos.length
    · rw [if_pos hlt] at h
      simp only [Option.some.injEq] at h
      subst h
      intro i f hif
      simp only [List.length_set] at *
      rw [List.getElem?_set] at hif
      by_cases hieq : i0 = i
      · rw [if_pos hieq, if_pos hlt] at hif
        exact absurd hif (by simp)
      · rw [if_neg hieq] at hif
        exact hinv i f hif
    · rw [if_neg hlt] at h
      exact Option.noConfusion h

/-- C5 amended.  The parent-chain invariant of the claim is not preserved
by journal application (see the counterexample: a delete orphans the
children of the deleted directory; a rename can also re-parent an entry
onto a non-directory or onto itself, and a create checks only occupancy
of the parent, not directory-ness).  What `process_journal_entries` does
preserve, for every batch that returns normally, is the weaker invariant
that every live entry's parent index lies within the table: the table
never shrinks, and every parent written by Create or Rename was checked
live beforehand. -/
theorem process_journal_entries_parents_in_bounds (idx : NtfsVolumeIndex)
    (entries : List JournalEntry) (idx2 : NtfsVolumeIndex)
    (h : process_journal_entries idx entries = some idx2)
    (hinv : parentsInBounds idx = true) :
    parentsInBounds idx2 = true := by
  rw [parentsInBounds_iff] at hinv ⊢
  induction entries generalizing idx with
  | nil =>
    rw [process_journal_entries] at h
    simp only [Option.some.injEq] at h
    subst h
    exact hinv
  | cons e rest ih =>
    rw [process_journal_entries] at h
    rcases hx : processEntry idx e with _ | idxm
    · rw [hx] at h
      exact Option.noConfusion h
    · rw [hx] at h
      simp only [Option.some_bind] at h
      exact ih idxm h (processEntry_parents_in_bounds idx idxm e hx hinv)

/-- Witness for C5 (amended) at a concrete input: deleting entry 6 of
`exampleIndex` keeps every live parent index within the table. -/
theorem process_journal_entries_parents_in_bounds_witness :
    parentsInBounds (⟨[none, none, none, none, none,
      some ⟨"", 5, 9223372036854775808⟩, none,
      some ⟨"file", 6, 0⟩]⟩ : NtfsVolumeIndex) = true :=
  process_journal_entries_parents_in_bounds exampleIndex [.FileDelete 6]
    ⟨[none, none, none, none, none,
      some ⟨"", 5, 9223372036854775808⟩, none,
      some ⟨"file", 6, 0⟩]⟩ (by decide) (by decide)


/-- C10.  The Delete branch of `process_journal_entries` writes the slot
by unchecked vector indexing: for every index state with table length
`L` and every `FileDelete i` with `i ≥ L` the call panics (`none`)
rather than treating the delete as a no-op, whereas for the same
out-of-range `i` a Rename uses the checked `get_mut` lookup and returns
normally leaving the index unchanged, and a Create grows the table to
`i + 1` slots. -/
theorem delete_unchecked_indexing (idx : NtfsVolumeIndex) (i p : Nat) (dir : Bool)
    (nm nm2 : String)
    (hi : idx.infos.length ≤ i) (hp : (find_by_index idx p).isSome = true) :
    process_journal_entries idx [.FileDelete i] = none ∧
    process_journal_entries idx [.Rename i nm2 p] = some idx ∧
    (∃ idx2, process_journal_entries idx [.FileCreate i dir p nm] = some idx2 ∧
      idx2.infos.length = i + 1) := by
  obtain ⟨pf, hpf⟩ := Option.isSome_iff_exists.mp hp
  refine ⟨?_, ?_, ?_⟩
  · rw [process_journal_entries, processEntry, if_neg (by omega)]
    rfl
  · rw [process_journal_entries, processEntry, hpf]
    rw [if_neg (by simp), List.getElem?_eq_none hi]
    rfl
  · have hci : find_by_index idx i = none := by
      unfold find_by_index
      rw [List.getElem?_eq_none hi]
      rfl
    refine ⟨⟨(idx.infos ++ List.replicate (i + 1 - idx.infos.length) none).set i
      (some ⟨nm, p, 0 ||| (if dir then 1 <<< 63 else 0)⟩)⟩, ?_, ?_⟩
    · rw [process_journal_entries, processEntry, hci]
      rw [if_neg (by simp), hpf, if_neg (by simp), if_pos hi]
      rw [FileInfo.new, if_pos (by omega)]
      rfl
    · simp only [List.length_set, List.length_append, List.length_replicate]
      omega

/-- Witness for C10 at a concrete input: a one-entry index and MFT
index 3. -/
theorem delete_unchecked_indexing_witness :
    process_journal_entries ⟨[some ⟨"r", 0, 0⟩]⟩ [.FileDelete 3] = none ∧
    process_journal_entries ⟨[some ⟨"r", 0, 0⟩]⟩ [.Rename 3 "n" 0] =
      some ⟨[some ⟨"r", 0, 0⟩]⟩ ∧
    (∃ idx2, process_journal_entries ⟨[some ⟨"r", 0, 0⟩]⟩ [.FileCreate 3 false 0 "f"] =
      some idx2 ∧ idx2.infos.length = 3 + 1) :=
  delete_unchecked_indexing ⟨[some ⟨"r", 0, 0⟩]⟩ 3 0 false "f" "n" (by decide) (by decide)

end index

/-! ## src/ntfs/file_record.rs : the attribute iterator

`attribute_iterator_next` is one `next()` call of `AttributeIterator`
(file_record.rs lines 162-183): stop when `offset >= bytes_used`, read
the attribute header at `data[offset..]` (type code in bytes 0-3, length
in bytes 4-7, little endian), stop at the `End` type code `0xFFFFFFFF`,
otherwise yield and advance by the attribute length.  `fault` models the
out-of-bounds header read the source would perform when the offset runs
past the record slice.  `attrIterN` applies `n` steps; `some off` means
the iterator is still yielding at offset `off`. -/

def readU32 (data : List Nat) (off : Nat) : Option Nat :=
  if off + 4 ≤ data.length then some (bytesToNatLE (sliceBytes data off 4)) else none

inductive AttrStep where
  | stop
  | yields (nextOffset : Nat)
  | fault
deriving Repr, DecidableEq

def attribute_iterator_next (data : List Nat) (bytes_used : Nat) (offset : Nat) : AttrStep :=
  if bytes_used ≤ offset then .stop
  else
    match readU32 data offset, readU32 data (offset + 4) with
    | some ty, some len =>
      if ty = 0xFFFFFFFF then .stop else .yields (offset + len)
    | _, _ => .fault

def attrAdvance (data : List Nat) (bytes_used : Nat) (off : Nat) : Option Nat :=
  match attribute_iterator_next data bytes_used off with
  | .yields o => some o
  | _ => none

def attrIterN (data : List Nat) (bytes_used off : Nat) : Nat → Option Nat
  | 0 => some off
  | n + 1 => (attrIterN data bytes_used off n).bind (attrAdvance data bytes_used)

def loopAttrData : List Nat := [0x10, 0, 0, 0, 0, 0, 0, 0]

/-- C6 (code bug).  The attribute iterator does not terminate on every
input: on a record whose first attribute has type `0x10` and length 0
(`loopAttrData`, with `bytes_used = 24`), the offset never advances, so
the iterator yields the same attribute after every number of steps,
contradicting the claim that iteration always stops at `End`, at
`bytes_used`, or at a malformed attribute. -/
theorem attribute_iterator_diverges : ∀ n : Nat, attrIterN loopAttrData 24 0 n = some 0 := by
  intro n
  induction n with
  | zero => rfl
  | succ n ih =>
    rw [attrIterN, ih]
    rfl

/-! ## src/ntfs/file_attribute.rs : `decode_data_runs`

The embedded `Attribute` carries exactly the header fields the function
reads (`attribute_type`, `non_resident`, `length`,
`last.non_resident.data_runs_offset`, `last.non_resident.real_size`) and
the attribute byte slice `self.data`.  `decodeRunsLoop` is the `while
data[offset] != 0` loop.  Panics modelled as `none`: out-of-bounds
indexing and slicing, `buf[..n]` with a nibble width above 8, the
`<< 64` shift when the offset width is 0, and debug-profile arithmetic
overflow of the usize computations (all values stay below `2^64` under
the hypotheses of the round-trip theorem). -/

/-- Signed little-endian value of a byte list: the value the source
computes by `(cluster_offset << empty_bits) >> empty_bits` on an i64,
which sign-extends the low `8 * length` bits. -/
def signedOfBytesLE (bs : List Nat) : Int :=
  let v := bytesToNatLE bs
  if v < 2 ^ (8 * bs.length - 1) then (v : Int) else (v : Int) - 2 ^ (8 * bs.length)

structure Attribute where
  attribute_type : Nat
  non_resident : Bool
  length : Nat
  data_runs_offset : Nat
  real_size : Nat
  data : List Nat
deriving Repr, DecidableEq

def decodeRunsLoop (bpc : Nat) (data : List Nat) (offset prev : Nat) (acc : List Run) :
    Option (List Run) :=
  match data[offset]? with
  | none => none
  | some b =>
    if b = 0 then some acc
    else
      let cluster_count_size := b % 16
      let cluster_offset_size := b / 16
      if _h : offset + 1 + cluster_count_size + cluster_offset_size ≤ data.length then
        if 8 < cluster_count_size ∨ 8 < cluster_offset_size then none
        else if cluster_offset_size = 0 then none
        else
          let cluster_count := bytesToNatLE (sliceBytes data (offset + 1) cluster_count_size)
          let cluster_offset :=
            signedOfBytesLE (sliceBytes data (offset + 1 + cluster_count_size) cluster_offset_size)
          let startOpt : Option Nat :=
            if 0 ≤ cluster_offset then
              let s := prev + cluster_offset.toNat * bpc
              if s < 2 ^ 64 then some s else none
            else
              let d := (-cluster_offset).toNat * bpc
              if d ≤ prev then some (prev - d) else none
          match startOpt with
          | none => none
          | some start =>
            let run_size := cluster_count * bpc
            if start + run_size < 2 ^ 64 then
              decodeRunsLoop bpc data (offset + 1 + cluster_count_size + cluster_offset_size)
                start (acc ++ [⟨start, start + run_size⟩])
            else none
      else none
termination_by data.length - offset
decreasing_by omega

def decode_data_runs (a : Attribute) (bpc : Nat) : Option (Option (Nat × List Run)) :=
  if a.attribute_type ≠ 0x80 ∨ a.non_resident = false then some none
  else if a.real_size = 0 then some (some (0, []))
  else if a.data_runs_offset + a.length ≤ a.data.length then
    match decodeRunsLoop bpc (sliceBytes a.data a.data_runs_offset a.length) 0 0 [] with
    | none => none
    | some runs => some (some (a.real_size, runs))
  else none

/-- C8 counterexample.  A non-resident $DATA attribute whose data-run
list is the single terminator byte `[0]` but whose `real_size` is 7
decodes to `(7, [])`, not `(0, [])`: the total size returned is the
header's `real_size`, which the claim fixes to zero. -/
theorem decode_data_runs_zero_terminator_counterexample :
    decode_data_runs ⟨0x80, true, 1, 0, 7, [0]⟩ 4096 = some (some (7, [])) ∧
    some (some ((7 : Nat), ([] : List Run))) ≠ some (some ((0 : Nat), ([] : List Run))) := by
  constructor
  · rw [decode_data_runs]
    rw [if_neg (by simp), if_neg (by simp), if_pos (by simp)]
    rw [decodeRunsLoop]
    simp [sliceBytes]
  · simp

/-- C8 amended.  For every non-resident $DATA attribute whose data-run
region begins with the zero terminator byte, `decode_data_runs` yields
`(real_size, [])`: an empty run list together with the attribute's own
`real_size`; in particular `(0, [])` exactly when `real_size = 0` (that
case short-circuits before even reading the run list). -/
theorem decode_data_runs_zero_terminator (a : Attribute) (bpc : Nat)
    (hty : a.attribute_type = 0x80) (hnr : a.non_resident = true)
    (hlen : 1 ≤ a.length) (hbound : a.data_runs_offset + a.length ≤ a.data.length)
    (hzero : a.data[a.data_runs_offset]? = some 0) :
    decode_data_runs a bpc = some (some (a.real_size, [])) := by
  rw [decode_data_runs]
  rw [if_neg (by simp [hty, hnr])]
  by_cases hrs : a.real_size = 0
  · rw [if_pos hrs, hrs]
  · rw [if_neg hrs, if_pos hbound]
    have hfirst : (sliceBytes a.data a.data_runs_offset a.length)[0]? = some 0 := by
      unfold sliceBytes
      rw [List.getElem?_take, if_pos (by omega), List.getElem?_drop]
      simpa using hzero
    rw [decodeRunsLoop, hfirst]
    simp

/-- Witness for C8 at a concrete input: run region `[0]` at offset 1,
real_size 5. -/
theorem decode_data_runs_zero_terminator_witness :
    decode_data_runs ⟨0x80, true, 2, 1, 5, [9, 0, 0]⟩ 512 =
      some (some ((⟨0x80, true, 2, 1, 5, [9, 0, 0]⟩ : Attribute).real_size, [])) :=
  decode_data_runs_zero_terminator ⟨0x80, true, 2, 1, 5, [9, 0, 0]⟩ 512
    rfl rfl (by decide) (by decide) (by decide)

/-- One run of the claim's encoder: absolute starting cluster `lcn`,
cluster count `count`, and the chosen nibble widths (`ccs` bytes for the
count, `cos` bytes for the signed offset delta). -/
structure EncRun where
  lcn : Nat
  count : Nat
  ccs : Nat
  cos : Nat
deriving Repr, DecidableEq

def intToBytesLE (w : Nat) (d : Int) : List Nat :=
  natToBytesLE w (d % (2 ^ (8 * w))).toNat

def encodeRun (prevLcn : Nat) (r : EncRun) : List Nat :=
  (r.ccs + 16 * r.cos) :: (natToBytesLE r.ccs r.count ++
    intToBytesLE r.cos ((r.lcn : Int) - (prevLcn : Int)))

def encodeRunsFrom (prevLcn : Nat) : List EncRun → List Nat
  | [] => [0]
  | r :: rest => encodeRun prevLcn r ++ encodeRunsFrom r.lcn rest

/-- Width validity of one encoded run relative to the previous absolute
cluster offset: nonzero widths of at most 8 bytes, count within its
width, signed delta within its width. -/
def ValidEnc (prevLcn : Nat) (r : EncRun) : Prop :=
  1 ≤ r.ccs ∧ r.ccs ≤ 8 ∧ 1 ≤ r.cos ∧ r.cos ≤ 8 ∧
  r.count < 2 ^ (8 * r.ccs) ∧
  -(2 ^ (8 * r.cos - 1) : Int) ≤ (r.lcn : Int) - (prevLcn : Int) ∧
  ((r.lcn : Int) - (prevLcn : Int)) < 2 ^ (8 * r.cos - 1)

def ChainValid : Nat → List EncRun → Prop
  | _, [] => True
  | prevLcn, r :: rest => ValidEnc prevLcn r ∧ ChainValid r.lcn rest

theorem signedOfBytesLE_intToBytesLE (w : Nat) (d : Int) (hw : 1 ≤ w)
    (hlo : -(2 ^ (8 * w - 1) : Int) ≤ d) (hhi : d < 2 ^ (8 * w - 1)) :
    signedOfBytesLE (intToBytesLE w d) = d := by
  have hlen : (intToBytesLE w d).length = w := length_natToBytesLE _ _
  have hpow : (256 : Nat) ^ w = 2 ^ (8 * w) := by
    rw [show (256 : Nat) = 2 ^ 8 from rfl, ← pow_mul]
  have hP : (2 : Int) ^ (8 * w) = 2 ^ (8 * w - 1) * 2 := by
    rw [← pow_succ]
    congr 1
    omega
  have hmodpos : (0 : Int) < 2 ^ (8 * w) := by positivity
  have hcast2 : ((2 ^ (8 * w) : Nat) : Int) = (2 : Int) ^ (8 * w) := by push_cast; rfl
  have hm0 : 0 ≤ d % 2 ^ (8 * w) := Int.emod_nonneg d (ne_of_gt hmodpos)
  have hm1 : d % 2 ^ (8 * w) < 2 ^ (8 * w) := Int.emod_lt_of_pos d hmodpos
  have hv : (bytesToNatLE (intToBytesLE w d) : Int) = d % 2 ^ (8 * w) := by
    rw [intToBytesLE, bytesToNatLE_natToBytesLE, hpow]
    have hlt : (d % 2 ^ (8 * w)).toNat < 2 ^ (8 * w) := by omega
    rw [Nat.mod_eq_of_lt hlt]
    omega
  have hcast : ((2 ^ (8 * w - 1) : Nat) : Int) = (2 : Int) ^ (8 * w - 1) := by push_cast; rfl
  have hQ : (0 : Int) < 2 ^ (8 * w - 1) := by positivity
  have hup : d < 2 ^ (8 * w) := by rw [hP]; omega
  have hm : d % 2 ^ (8 * w) = if 0 ≤ d then d else d + 2 ^ (8 * w) := by
    by_cases hd : 0 ≤ d
    · rw [if_pos hd]
      exact Int.emod_eq_of_lt hd hup
    · rw [if_neg hd]
      have h1 : (d + 2 ^ (8 * w)) % 2 ^ (8 * w) = d % 2 ^ (8 * w) := by
        simp [Int.add_mul_emod_self_left d (2 ^ (8 * w)) 1]
      rw [← h1]
      exact Int.emod_eq_of_lt (by omega) (by omega)
  rw [signedOfBytesLE]
  simp only [hlen]
  by_cases hd : 0 ≤ d
  · rw [if_pos hd] at hm
    rw [if_pos (by omega)]
    omega
  · rw [if_neg hd] at hm
    rw [if_neg (by omega)]
    omega

theorem length_intToBytesLE (w : Nat) (d : Int) : (intToBytesLE w d).length = w :=
  length_natToBytesLE _ _

theorem getElem?_append_cons (pre : List Nat) (b : Nat) (post : List Nat) (o : Nat)
    (ho : pre.length = o) : (pre ++ b :: post)[o]? = some b := by
  subst ho
  rw [List.getElem?_append_right (le_refl _)]
  simp

theorem sliceBytes_append_exact (pre mid post : List Nat) (o w : Nat)
    (ho : pre.length = o) (hw : mid.length = w) :
    sliceBytes (pre ++ (mid ++ post)) o w = mid := by
  subst ho hw
  unfold sliceBytes
  rw [List.drop_left, List.take_left]

theorem decodeRunsLoop_encodeRunsFrom (bpc : Nat) :
    ∀ (rs : List EncRun) (pre : List Nat) (prevLcn : Nat) (acc : List Run),
    ChainValid prevLcn rs →
    (∀ r ∈ rs, (r.lcn + r.count) * bpc < 2 ^ 64) →
    decodeRunsLoop bpc (pre ++ encodeRunsFrom prevLcn rs) pre.length (prevLcn * bpc) acc =
      some (acc ++ rs.map fun r => ⟨r.lcn * bpc, r.lcn * bpc + r.count * bpc⟩) := by
  intro rs
  induction rs with
  | nil =>
    intro pre prevLcn acc _ _
    rw [encodeRunsFrom, decodeRunsLoop, getElem?_append_cons pre 0 [] pre.length rfl]
    simp
  | cons r rest ih =>
    intro pre prevLcn acc hcv hb
    obtain ⟨hval, hcvrest⟩ := hcv
    obtain ⟨hccs1, hccs8, hcos1, hcos8, hcount, hdlo, hdhi⟩ := hval
    have hbr := hb r (by simp)
    have hbrest : ∀ x ∈ rest, (x.lcn + x.count) * bpc < 2 ^ 64 := fun x hx => hb x (by simp [hx])
    rw [encodeRunsFrom]
    set hdr := r.ccs + 16 * r.cos with hhdr
    set cb := natToBytesLE r.ccs r.count with hcbdef
    set ob := intToBytesLE r.cos ((r.lcn : Int) - (prevLcn : Int)) with hobdef
    set tail := encodeRunsFrom r.lcn rest with htaildef
    have hcb_len : cb.length = r.ccs := length_natToBytesLE _ _
    have hob_len : ob.length = r.cos := length_intToBytesLE _ _
    have hshape : pre ++ (encodeRun prevLcn r ++ tail) = pre ++ hdr :: ((cb ++ ob) ++ tail) := by
      simp [encodeRun, List.append_assoc]
    have f1 : (pre ++ (encodeRun prevLcn r ++ tail))[pre.length]? = some hdr := by
      rw [hshape]
      exact getElem?_append_cons pre hdr _ pre.length rfl
    have f2 : sliceBytes (pre ++ (encodeRun prevLcn r ++ tail)) (pre.length + 1) r.ccs = cb := by
      have h : pre ++ (encodeRun prevLcn r ++ tail) = (pre ++ [hdr]) ++ (cb ++ (ob ++ tail)) := by
        simp [encodeRun, List.append_assoc]
      rw [h]
      exact sliceBytes_append_exact _ _ _ _ _ (by simp) hcb_len
    have f3 : sliceBytes (pre ++ (encodeRun prevLcn r ++ tail)) (pre.length + 1 + r.ccs) r.cos
        = ob := by
      have h : pre ++ (encodeRun prevLcn r ++ tail) = ((pre ++ [hdr]) ++ cb) ++ (ob ++ tail) := by
        simp [encodeRun, List.append_assoc]
      rw [h]
      refine sliceBytes_append_exact _ _ _ _ _ ?_ hob_len
      simp [hcb_len]
      omega
    have f4 : (pre ++ (encodeRun prevLcn r ++ tail)).length =
        pre.length + 1 + r.ccs + r.cos + tail.length := by
      simp [encodeRun, hcb_len, hob_len]
      omega
    have e1 : hdr % 16 = r.ccs := by omega
    have e2 : hdr / 16 = r.cos := by omega
    have hsign : signedOfBytesLE ob = (r.lcn : Int) - (prevLcn : Int) :=
      signedOfBytesLE_intToBytesLE r.cos _ hcos1 hdlo hdhi
    have hcountv : bytesToNatLE cb = r.count := by
      rw [hcbdef, bytesToNatLE_natToBytesLE]
      have hpow : (256 : Nat) ^ r.ccs = 2 ^ (8 * r.ccs) := by
        rw [show (256 : Nat) = 2 ^ 8 from rfl, ← pow_mul]
      rw [hpow]
      exact Nat.mod_eq_of_lt hcount
    have hne : hdr ≠ 0 := by omega
    rw [decodeRunsLoop]
    simp only [f1, hne, e1, e2, f2, f3, hsign, hcountv, if_false, ite_false]
    rw [dif_pos (by rw [f4]; omega)]
    rw [if_neg (by omega), if_neg (by omega)]
    have hstart : (if 0 ≤ (r.lcn : Int) - (prevLcn : Int) then
        (if prevLcn * bpc + ((r.lcn : Int) - (prevLcn : Int)).toNat * bpc < 2 ^ 64 then
          some (prevLcn * bpc + ((r.lcn : Int) - (prevLcn : Int)).toNat * bpc) else none)
      else
        (if (-((r.lcn : Int) - (prevLcn : Int))).toNat * bpc ≤ prevLcn * bpc then
          some (prevLcn * bpc - (-((r.lcn : Int) - (prevLcn : Int))).toNat * bpc) else none))
      = some (r.lcn * bpc) := by
      by_cases hd0 : 0 ≤ (r.lcn : Int) - (prevLcn : Int)
      · rw [if_pos hd0]
        have htn : ((r.lcn : Int) - (prevLcn : Int)).toNat = r.lcn - prevLcn := by omega
        have hple : prevLcn ≤ r.lcn := by omega
        have hsum : prevLcn * bpc + (r.lcn - prevLcn) * bpc = r.lcn * bpc := by
          rw [← Nat.add_mul]
          congr 1
          omega
        rw [htn, hsum, if_pos]
        calc r.lcn * bpc ≤ (r.lcn + r.count) * bpc := Nat.mul_le_mul_right bpc (by omega)
          _ < 2 ^ 64 := hbr
      · rw [if_neg hd0]
        have htn : (-((r.lcn : Int) - (prevLcn : Int))).toNat = prevLcn - r.lcn := by omega
        have hple : r.lcn ≤ prevLcn := by omega
        have hsub : prevLcn * bpc - (prevLcn - r.lcn) * bpc = r.lcn * bpc := by
          rw [← Nat.sub_mul]
          congr 1
          omega
        rw [htn, if_pos (Nat.mul_le_mul_right bpc (by omega)), hsub]
    rw [hstart]
    have hfit : r.lcn * bpc + r.count * bpc < 2 ^ 64 := by
      have hh : r.lcn * bpc + r.count * bpc = (r.lcn + r.count) * bpc := (Nat.add_mul _ _ _).symm
      omega
    simp only [hfit, if_true, ite_true]
    have hoff : pre.length + 1 + r.ccs + r.cos = (pre ++ encodeRun prevLcn r).length := by
      simp [encodeRun, hcb_len, hob_len]
      omega
    have hre : pre ++ (encodeRun prevLcn r ++ tail) = (pre ++ encodeRun prevLcn r) ++ tail :=
      (List.append_assoc _ _ _).symm
    rw [hoff]
    rw [hre]
    rw [htaildef]
    refine (ih (pre ++ encodeRun prevLcn r) r.lcn
      (acc ++ [⟨r.lcn * bpc, r.lcn * bpc + r.count * bpc⟩]) hcvrest hbrest).trans ?_
    simp

/-- C7.  Data-run decoding round-trip: for every run list encoded in the
NTFS nibble-header format (per run a header byte with low nibble = count
width and high nibble = offset width, an unsigned little-endian cluster
count, and a signed sign-extended cluster-offset delta accumulated
against the previous run's absolute cluster offset, the list terminated
by a zero byte), with any valid width choices (`ChainValid`),
`decode_data_runs` reproduces exactly the original byte ranges with
start and length multiplied by bytes-per-cluster, including run lists
with negative deltas. -/
theorem decode_data_runs_encode_roundtrip (bpc total : Nat) (rs : List EncRun)
    (htot : total ≠ 0) (hcv : ChainValid 0 rs)
    (hb : ∀ r ∈ rs, (r.lcn + r.count) * bpc < 2 ^ 64) :
    decode_data_runs
      ⟨0x80, true, (encodeRunsFrom 0 rs).length, 0, total, encodeRunsFrom 0 rs⟩ bpc =
      some (some (total, rs.map fun r => ⟨r.lcn * bpc, r.lcn * bpc + r.count * bpc⟩)) := by
  have hmain := decodeRunsLoop_encodeRunsFrom bpc rs [] 0 [] hcv hb
  simp only [List.nil_append, List.length_nil, Nat.zero_mul] at hmain
  rw [decode_data_runs]
  rw [if_neg (by simp)]
  rw [if_neg htot]
  rw [if_pos (by simp)]
  have hslice : sliceBytes (encodeRunsFrom 0 rs) 0 (encodeRunsFrom 0 rs).length =
      encodeRunsFrom 0 rs := by
    simp [sliceBytes]
  rw [hslice, hmain]

/-- A sample run list for the round-trip witness: second run has a
negative cluster-offset delta (from cluster 5 back to cluster 1). -/
def roundtripSample : List EncRun := [⟨5, 2, 1, 1⟩, ⟨1, 3, 1, 1⟩]

/-- Witness for C7 at a concrete input: two runs with a negative delta
between them, widths 1/1, cluster size 16. -/
theorem decode_data_runs_encode_roundtrip_witness :
    decode_data_runs
      ⟨0x80, true, (encodeRunsFrom 0 roundtripSample).length, 0, 80,
        encodeRunsFrom 0 roundtripSample⟩ 16 =
      some (some (80, roundtripSample.map
        fun r => ⟨r.lcn * 16, r.lcn * 16 + r.count * 16⟩)) :=
  decode_data_runs_encode_roundtrip 16 80 roundtripSample (by decide)
    (by refine ⟨?_, ?_, trivial⟩ <;> norm_num [ValidEnc, roundtripSample])
    (by intro r hr; fin_cases hr <;> norm_num)


/-! ## src/ntfs/file_record.rs : `destructure_file_name_attribute`

`AttrView` is one attribute as the iterator yields it: the header fields
the selection reads (type code, residency flag, resident value offset)
plus the byte suffix `&record[offset..]` that `Attribute.data` aliases.
`destructure_loop` transliterates the lazy Rust pipeline
`filter(FileName ∧ resident) . filter(reparse clear) . take_while(found
logic) . last()` with its shared mutable `found` flag: elements after
the first preferred-namespace match are never inspected, and the
out-of-bounds reads the source would perform on undersized attributes
are `none`.  `extract_file_name` is the final `.map` closure; the
UTF-16-to-UTF-8 `String::from_utf16_lossy` step is abstracted as the
sequence of UTF-16 code units (`toU16LE`). -/

/-- Pair consecutive bytes into little-endian UTF-16 code units, as the
source's `align_to::<u16>` view of the name slice. -/
def toU16LE : List Nat → List Nat
  | b0 :: b1 :: rest => (b0 % 256 + 256 * (b1 % 256)) :: toU16LE rest
  | _ => []

structure AttrView where
  attribute_type : Nat
  non_resident : Bool
  value_offset : Nat
  data : List Nat
deriving Repr, DecidableEq

def destructure_loop (found : Bool) (cur : Option AttrView) :
    List AttrView → Option (Option AttrView)
  | [] => some cur
  | a :: rest =>
    if ¬(a.attribute_type = 0x30 ∧ a.non_resident = false) then
      destructure_loop found cur rest
    else
      match readU32 a.data (a.value_offset + 0x38) with
      | none => none
      | some flags =>
        if flags &&& 0x400 ≠ 0 then destructure_loop found cur rest
        else if found then some cur
        else
          match a.data[a.value_offset + 0x41]? with
          | none => none
          | some ns =>
            destructure_loop (ns == 1 || ns == 3) (some a) rest

def extract_file_name (a : AttrView) : Option (Nat × Nat × List Nat) :=
  match a.data[a.value_offset + 0x40]? with
  | none => none
  | some lenByte =>
    let length := lenByte * 2
    if a.value_offset + 0x42 + length ≤ a.data.length then
      if a.value_offset + 8 ≤ a.data.length ∧ a.value_offset + 0x30 + 8 ≤ a.data.length then
        some (bytesToNatLE (sliceBytes a.data (a.value_offset + 0x30) 8),
          bytesToNatLE (sliceBytes a.data a.value_offset 8) &&& 0xFFFFFFFFFFFF,
          toU16LE (sliceBytes a.data (a.value_offset + 0x42) length))
      else none
    else none

def destructure_file_name_attribute (attrs : List AttrView) :
    Option (Option (Nat × Nat × List Nat)) :=
  match destructure_loop false none attrs with
  | none => none
  | some none => some none
  | some (some a) =>
    match extract_file_name a with
    | none => none
    | some v => some (some v)

/-- Modelled from the spec: the candidates of primary-name selection are
the resident $FILE_NAME attributes whose file-attributes word (bit
0x0400 = reparse point) is clear. -/
def specCandidates (attrs : List AttrView) : List AttrView :=
  attrs.filter fun a =>
    a.attribute_type == 0x30 && !a.non_resident &&
      (bytesToNatLE (sliceBytes a.data (a.value_offset + 0x38) 4) &&& 0x400 == 0)

/-- Modelled from the spec: the preferred-namespace test, true when the
namespace byte is Win32 (1) or Win32AndDOS (3). -/
def nsPred (a : AttrView) : Bool :=
  a.data.getD (a.value_offset + 0x41) 0 == 1 || a.data.getD (a.value_offset + 0x41) 0 == 3

/-- Modelled from the spec: prefer the first candidate whose namespace
byte is Win32 (1) or Win32AndDOS (3); if none, the last candidate. -/
def spec_primary_selection (attrs : List AttrView) : Option AttrView :=
  match (specCandidates attrs).find? nsPred with
  | some a => some a
  | none => (specCandidates attrs).getLast?

theorem destructure_loop_found (attrs : List AttrView)
    (hwf : ∀ a ∈ attrs, a.attribute_type = 0x30 → a.non_resident = false →
      a.value_offset + 0x42 ≤ a.data.length) :
    ∀ cur, destructure_loop true cur attrs = some cur := by
  induction attrs with
  | nil => intro cur; rfl
  | cons a rest ih =>
    intro cur
    have hrest : ∀ x ∈ rest, x.attribute_type = 0x30 → x.non_resident = false →
        x.value_offset + 0x42 ≤ x.data.length := fun x hx => hwf x (List.mem_cons_of_mem _ hx)
    rw [destructure_loop]
    by_cases hc : a.attribute_type = 0x30 ∧ a.non_resident = false
    · rw [if_neg (not_not.mpr hc)]
      have hflags : readU32 a.data (a.value_offset + 0x38) =
          some (bytesToNatLE (sliceBytes a.data (a.value_offset + 0x38) 4)) := by
        rw [readU32, if_pos (by have := hwf a (by simp) hc.1 hc.2; omega)]
      simp only [hflags]
      by_cases hrp : bytesToNatLE (sliceBytes a.data (a.value_offset + 0x38) 4) &&& 0x400 ≠ 0
      · rw [if_pos hrp]
        exact ih hrest cur
      · rw [if_neg hrp]
        simp
    · rw [if_pos hc]
      exact ih hrest cur

theorem getLast?_cons_eq {α : Type} (a : α) (l : List α) :
    (a :: l).getLast? = match l.getLast? with
      | some x => some x
      | none => some a := by
  cases l with
  | nil => rfl
  | cons b t =>
    rw [List.getLast?_cons_cons]
    rcases h : (b :: t).getLast? with _ | x
    · rw [List.getLast?_eq_none_iff] at h
      exact absurd h (by simp)
    · rfl

theorem destructure_loop_false (attrs : List AttrView)
    (hwf : ∀ a ∈ attrs, a.attribute_type = 0x30 → a.non_resident = false →
      a.value_offset + 0x42 ≤ a.data.length) :
    ∀ cur, destructure_loop false cur attrs = some (
      match (specCandidates attrs).find? nsPred with
      | some m => some m
      | none =>
        match (specCandidates attrs).getLast? with
        | some l => some l
        | none => cur) := by
  induction attrs with
  | nil => intro cur; rfl
  | cons a rest ih =>
    intro cur
    have hrest : ∀ x ∈ rest, x.attribute_type = 0x30 → x.non_resident = false →
        x.value_offset + 0x42 ≤ x.data.length := fun x hx => hwf x (List.mem_cons_of_mem _ hx)
    rw [destructure_loop]
    by_cases hc : a.attribute_type = 0x30 ∧ a.non_resident = false
    · rw [if_neg (not_not.mpr hc)]
      have hlen := hwf a (by simp) hc.1 hc.2
      have hflags : readU32 a.data (a.value_offset + 0x38) =
          some (bytesToNatLE (sliceBytes a.data (a.value_offset + 0x38) 4)) := by
        rw [readU32, if_pos (by omega)]
      simp only [hflags]
      by_cases hrp : bytesToNatLE (sliceBytes a.data (a.value_offset + 0x38) 4) &&& 0x400 ≠ 0
      · rw [if_pos hrp]
        have hsc : specCandidates (a :: rest) = specCandidates rest := by
          rw [specCandidates, List.filter_cons, if_neg (by simp [hc.1, hc.2, hrp])]
          rfl
        rw [hsc]
        exact ih hrest cur
      · rw [if_neg hrp]
        have hlt : a.value_offset + 0x41 < a.data.length := by omega
        have hv : a.data[a.value_offset + 0x41]? =
            some (a.data.getD (a.value_offset + 0x41) 0) := by
          rw [List.getElem?_eq_getElem hlt, List.getD_eq_getElem?_getD,
            List.getElem?_eq_getElem hlt]
          rfl
        have hsc : specCandidates (a :: rest) = a :: specCandidates rest := by
          rw [specCandidates, List.filter_cons, if_pos (by simp [hc.1, hc.2]; omega)]
          rfl
        simp only [Bool.false_eq_true, if_false, hv]
        rw [hsc]
        by_cases hns : nsPred a = true
        · have hfind : (a :: specCandidates rest).find? nsPred = some a :=
            List.find?_cons_of_pos _ hns
          rw [hfind]
          have : (a.data.getD (a.value_offset + 0x41) 0 == 1 ||
              a.data.getD (a.value_offset + 0x41) 0 == 3) = true := hns
          rw [this]
          exact destructure_loop_found rest hrest (some a)
        · have hnsf : nsPred a = false := by
            simpa using hns
          have hfind : (a :: specCandidates rest).find? nsPred =
              (specCandidates rest).find? nsPred := List.find?_cons_of_neg _ (by simp [hnsf])
          rw [hfind]
          have : (a.data.getD (a.value_offset + 0x41) 0 == 1 ||
              a.data.getD (a.value_offset + 0x41) 0 == 3) = false := hnsf
          rw [this]
          rw [ih hrest (some a)]
          rw [getLast?_cons_eq]
          rcases hfd : (specCandidates rest).find? nsPred with _ | m
          · rcases hgl : (specCandidates rest).getLast? with _ | l <;> rfl
          · rfl
    · rw [if_pos hc]
      have hsc : specCandidates (a :: rest) = specCandidates rest := by
        rw [specCandidates, List.filter_cons, if_neg]
        · rfl
        · simp only [Bool.and_eq_true, beq_iff_eq, Bool.not_eq_eq_eq_not, Bool.not_true]
          intro hcontra
          exact hc ⟨hcontra.1.1, by simpa using hcontra.1.2⟩
      rw [hsc]
      exact ih hrest cur

/-- C9.  Primary name selection: `destructure_file_name_attribute`
considers only resident $FILE_NAME attributes whose file-attributes word
has bit 0x0400 (reparse point) clear; among those it selects the first
attribute whose namespace byte is 1 (Win32) or 3 (Win32AndDOS), and when
no such attribute exists the last non-reparse instance; from the
selected attribute it returns the real size (u64 at value offset +
0x30), the low 48 bits of the 8-byte parent reference, and the UTF-16
name of the stated character length; it returns `None` when no candidate
attribute exists.  Stated as equality with the declarative
`spec_primary_selection`/`extract_file_name` composition for every
attribute list whose $FILE_NAME attributes are large enough for the
header reads the source performs unchecked. -/
theorem destructure_file_name_attribute_selects_primary (attrs : List AttrView)
    (hwf : ∀ a ∈ attrs, a.attribute_type = 0x30 → a.non_resident = false →
      a.value_offset + 0x42 ≤ a.data.length) :
    destructure_file_name_attribute attrs =
      match spec_primary_selection attrs with
      | none => some none
      | some a =>
        match extract_file_name a with
        | none => none
        | some v => some (some v) := by
  have hl := destructure_loop_false attrs hwf none
  rw [destructure_file_name_attribute]
  simp only [hl]
  rw [spec_primary_selection]
  rcases hfd : (specCandidates attrs).find? nsPred with _ | m
  · simp only [hfd]
    rcases hgl : (specCandidates attrs).getLast? with _ | l
    · simp only [hgl]
    · simp only [hgl]
  · simp only [hfd]

/-- Byte layout of a resident $FILE_NAME attribute value at value offset
0: 8-byte parent reference, zeros up to the real size at 0x30, zero
file-attribute flags at 0x38, name length and namespace bytes at
0x40/0x41, UTF-16 name bytes from 0x42. -/
def mkFnData (parent rs nameLen ns : Nat) (name : List Nat) : List Nat :=
  natToBytesLE 8 parent ++ List.replicate 40 0 ++ natToBytesLE 8 rs ++
    List.replicate 8 0 ++ [nameLen, ns] ++ name

/-- Two resident $FILE_NAME attributes for the C9 witness: a DOS-namespace
name (namespace byte 2) followed by a Win32 name (namespace byte 1). -/
def primaryNameSample : List AttrView :=
  [⟨0x30, false, 0, mkFnData 7 17 1 2 [0x41, 0]⟩,
   ⟨0x30, false, 0, mkFnData 7 17 1 1 [0x42, 0]⟩]

/-- Witness for C9 at a concrete input: a DOS-namespace name followed by
a Win32 name; the Win32 one is selected. -/
theorem destructure_file_name_attribute_selects_primary_witness :
    destructure_file_name_attribute primaryNameSample =
      match spec_primary_selection primaryNameSample with
      | none => some none
      | some a =>
        match extract_file_name a with
        | none => none
        | some v => some (some v) :=
  destructure_file_name_attribute_selects_primary primaryNameSample (by decide)

